import Mathlib

/-!
# Verification of the transparentlog Merkle-tree core

A shallow embedding of the `transparentlog` Rust crates (tree geometry,
append cascade, inclusion/consistency proofs, verifying client) together
with proofs and refutations of the specification's claims.

Digests are modelled by the free algebra `D`: `D.empty` stands for the
empty string `""` (the "no node" sentinel), `D.leaf i` for the SHA-256
leaf hash of the `i`-th record `rec{i}`, and `D.node a b` for
`SHA-256(hex(a) ++ hex(b))`.  SHA-256 outputs are 64-character hex
strings, so they are never `""` and the combination of two digests is a
function of the pair; the free constructors capture exactly these facts
(collisions are ignored, as the spec's properties assume).
-/

namespace TransparentLog

/-- Digest values: the empty-string sentinel, leaf hashes, interior hashes. -/
inductive D where
  | empty : D
  | leaf : Nat → D
  | node : D → D → D
deriving DecidableEq, Repr

/-- A position in the tree: `LogTreePosition { level, index }` in `base.rs`. -/
structure Pos where
  level : Nat
  index : Nat
deriving DecidableEq, Repr

/-- A log witness: `LogTree { size, hash }` in `base.rs`. -/
structure LogTree where
  size : Nat
  hash : D
deriving DecidableEq, Repr

/-- A record reference: `Record { id, hash }` in `base.rs`. -/
structure RecordRef where
  id : Nat
  hash : D
deriving DecidableEq, Repr

/-- The `while height<size && sz>0` loop of `tree_sizes` (`base.rs:166`).
`height` doubles from `1` each iteration, so the loop runs fewer than
`size` times; `fuel` is initialised to `size` and only bounds the
recursion depth — the loop guard is the first condition. -/
def tree_sizes_go : Nat → Nat → Nat → Nat → List Nat
  | 0, _, _, _ => []
  | fuel + 1, size, sz, height =>
    if height < size ∧ 0 < sz then
      let sz2 := if sz = 1 then 0 else sz / 2
      sz2 :: tree_sizes_go fuel size sz2 (height * 2)
    else []

/-- `tree_sizes` (`base.rs:159`): the number of nodes at each level. -/
def tree_sizes (size : Nat) : List Nat :=
  if 0 < size then size :: tree_sizes_go size size size 1 else []

/-- The `while new_level>0` descend loop of `proof_step` (`base.rs:201`):
walk down the left spine of a missing right sibling and insert the first
position that falls inside its level. -/
def descend_loop : Nat → Nat → List Nat → Finset Pos → Finset Pos
  | 0, _, _, pf => pf
  | nl + 1, ni, sizes, pf =>
    if ni * 2 < sizes.getD nl 0 then insert (⟨nl, ni * 2⟩ : Pos) pf
    else descend_loop nl (ni * 2) sizes pf

/-- `proof_step` (`base.rs:193`): one level of inclusion-proof positions,
then recurse to the parent while `level < sizes.len() - 1`.  That guard is
what stops the recursion; `fuel` starts at `sizes.length` (which exceeds
the `sizes.length - 1 - level` remaining recursions) and only bounds the
depth. -/
def proof_step_go : Nat → Nat → Nat → Nat → List Nat → Finset Pos →
    Finset Pos
  | fuel, level, index, size, sizes, pf =>
    let pf2 :=
      if index % 2 = 0 then
        if index + 1 < size then insert (⟨level, index + 1⟩ : Pos) pf
        else descend_loop level (index + 1) sizes pf
      else insert (⟨level, index - 1⟩ : Pos) pf
    match fuel with
    | 0 => pf2
    | f + 1 =>
      if level + 1 < sizes.length then
        proof_step_go f (level + 1) (index / 2) (size / 2) sizes pf2
      else pf2

/-- `proof_step` with its initial fuel. -/
def proof_step (level index size : Nat) (sizes : List Nat)
    (pf : Finset Pos) : Finset Pos :=
  proof_step_go sizes.length level index size sizes pf

/-- `proof_positions` (`base.rs:182`). -/
def proof_positions (index size : Nat) : Finset Pos :=
  let sizes := tree_sizes size
  if sizes.isEmpty then ∅ else proof_step 0 index size sizes ∅

/-- The `for (ix,sz) in sizes2 ... break` loop of the consistency-proof
construction (`base.rs:228`): insert `(ix, sz-1)` for the first level
strictly below the top whose node count is odd. -/
def first_odd_insert : List Nat → Nat → Nat → Finset Pos → Finset Pos
  | [], _, _, pf => pf
  | sz :: rest, ix, m, pf =>
    if ix < m ∧ sz % 2 = 1 then insert (⟨ix, sz - 1⟩ : Pos) pf
    else first_odd_insert rest (ix + 1) m pf

/-- `prefix_proof_positions` (`base.rs:219`): positions proving the size-`size1`
tree is a prefix of the size-`size2` tree.  The Rust `assert!(size1>0)` and
`assert!(size1<size2)` preconditions appear as hypotheses of the theorems
that use this definition. -/
def consistency_positions (size1 size2 : Nat) : Finset Pos :=
  let pf := proof_positions size1 size2 ∪ proof_positions (size1 - 1) size2
  let sizes2 := tree_sizes size2
  first_odd_insert sizes2 0 (sizes2.length - 1) pf

/-- `calc_hash` (`base.rs:258`): recompute the hash at a position from a
sparse bag of proof hashes, descending the tree.  A proof entry is consulted
only when its index lies inside its level (`position.index < sizes[level]`);
an absent leaf yields `""`, and an empty right child propagates the left
hash unchanged. -/
def calc_hash (proofs : Pos → Option D) (sizes : List Nat) : Nat → Nat → D
  | 0, index =>
    match (if index < sizes.getD 0 0 then proofs ⟨0, index⟩ else none) with
    | some h => h
    | none => D.empty
  | l + 1, index =>
    match (if index < sizes.getD (l + 1) 0 then proofs ⟨l + 1, index⟩ else none) with
    | some h => h
    | none =>
      let h1 := calc_hash proofs sizes l (index * 2)
      let h2 := calc_hash proofs sizes l (index * 2 + 1)
      if h2 = D.empty then h1 else D.node h1 h2

/-- `HashMap::insert` on a proof map (`proofs2.insert` in `verify`). -/
def mapInsert (m : Pos → Option D) (p : Pos) (h : D) : Pos → Option D :=
  fun q => if q = p then some h else m q

/-- `verify` (`base.rs:238`): check a record belongs to the tree. -/
def verify (tree : LogTree) (record : RecordRef) (proofs : Pos → Option D) :
    Bool :=
  let sizes := tree_sizes tree.size
  if sizes.isEmpty then false
  else
    decide (tree.hash =
      calc_hash (mapInsert proofs ⟨0, record.id⟩ record.hash) sizes
        (sizes.length - 1) 0)

/-- `verify_tree` (`base.rs:249`): check a witness against proof hashes. -/
def verify_tree (tree : LogTree) (proofs : Pos → Option D) : Bool :=
  let sizes := tree_sizes tree.size
  if sizes.isEmpty then false
  else decide (tree.hash = calc_hash proofs sizes (sizes.length - 1) 0)

/-- `push_hash` (`base.rs:65` / `memory.rs:31`): append a hash at a level
(creating the level when absent); when the level's length becomes even,
combine the last two hashes and cascade into the next level. -/
def push_hash : List (List D) → D → List (List D)
  | [], h => [[h]]
  | lvl :: rest, h =>
    let v := lvl ++ [h]
    if v.length % 2 = 0 then
      v :: push_hash rest (D.node (v.getD (v.length - 2) D.empty) h)
    else v :: rest

/-- The per-level hash store after appending records `rec0 … rec(n-1)`:
each `append` pushes the record's leaf hash at level 0 (`base.rs:57`). -/
def build_log : Nat → List (List D)
  | 0 => []
  | n + 1 => push_hash (build_log n) (D.leaf n)

/-- The frontier collected by `latest` (`memory.rs:61`): the rightmost hash
of each odd-sized level.  The Rust loop walks levels from highest to lowest
pushing onto a stack; this list is that stack read from its top (lowest
level first), which is the order the combining loop consumes it. -/
def frontier (st : List (List D)) : List D :=
  (st.filter (fun v => v.length % 2 = 1)).map (fun v => v.getLastD D.empty)

/-- The `while r.len()>1` loop of `latest` with the stack's top element
held in `acc`: pop `s1` (the accumulated hash) then `s2`, push
`H(s2 ‖ s1)`. -/
def combine_go : D → List D → D
  | acc, [] => acc
  | acc, s2 :: t => combine_go (D.node s2 acc) t

/-- The `while r.len()>1` loop of `latest` (`memory.rs:68`): repeatedly pop
two hashes `s1`, `s2` and push `H(s2 ‖ s1)`; `""` when the stack is empty. -/
def combine_frontier : List D → D
  | [] => D.empty
  | s1 :: t => combine_go s1 t

/-- The root returned by `latest` for a hash store. -/
def latest_root (st : List (List D)) : D :=
  combine_frontier (frontier st)

/-- `latest` (`memory.rs:61`) on the log populated with `n` records. -/
def latest (n : Nat) : LogTree :=
  ⟨n, latest_root (build_log n)⟩

/-- `get_hash` on the populated log: `hashes[level][index]` when present. -/
def server_hash (n : Nat) (p : Pos) : Option D :=
  ((build_log n).getD p.level []).get? p.index

/-- The log's `proofs` operation (`base.rs:84`): the map from each requested
position to its stored hash. -/
def server_proofs (n : Nat) (ps : Finset Pos) : Pos → Option D :=
  fun p => if p ∈ ps then server_hash n p else none

/-! ## The verifying client (`check_record`, `get_proofs`, `memory.rs` client)

The log side is instantiated with the honestly populated `n`-record log
(`latest n` / `server_hash n`), which is how every scenario in the spec
runs it.  The client is the caching `InMemoryLogClient`. -/

/-- Client state: the trusted witness and the proof cache
(`InMemoryLogClient` with the cache enabled, `memory.rs:90`). -/
structure Client where
  latest : LogTree
  cache : Pos → Option D

/-- `add_cached` (`memory.rs:148`): merge fetched proofs into the cache,
freshly read entries overriding. -/
def add_cached (c : Client) (read : Pos → Option D) : Client :=
  { c with
    cache := fun p => match read p with | some h => some h | none => c.cache p }

/-- The positions `get_proofs` forwards to the log's `proofs` operation:
the requested positions that miss the client's cache (`base.rs:135`). -/
def requested (c : Client) (ps : Finset Pos) : Finset Pos :=
  ps.filter (fun p => (c.cache p).isNone)

/-- `get_proofs` (`base.rs:132`): serve cache hits locally, fetch the rest
from the log, merge the fetched hashes into the cache unconditionally, and
return the union together with the updated client. -/
def get_proofs (c : Client) (n : Nat) (ps : Finset Pos) :
    (Pos → Option D) × Client :=
  let read := server_proofs n (requested c ps)
  let c2 := add_cached c read
  let result : Pos → Option D := fun p =>
    if p ∈ ps then
      match c.cache p with
      | some h => some h
      | none => read p
    else none
  (result, c2)

/-- The inclusion tail of `check_record` (`base.rs:127`): fetch the
inclusion-proof positions for the (possibly advanced) witness and verify. -/
def check_tail (c : Client) (n : Nat) (record : RecordRef) : Bool × Client :=
  let v := proof_positions record.id c.latest.size
  let pr := get_proofs c n v
  (verify c.latest record pr.1, pr.2)

/-- `check_record` (`base.rs:111`): advance the witness when the claimed id
is beyond it (running the consistency check when the old witness is
nonempty), then verify inclusion. -/
def check_record (c : Client) (n : Nat) (record : RecordRef) : Bool × Client :=
  if c.latest.size ≤ record.id then
    let l2 := latest n
    if 0 < c.latest.size then
      let v := consistency_positions c.latest.size l2.size
      let pr := get_proofs c n v
      if verify_tree c.latest pr.1 = false then (false, pr.2)
      else if verify_tree l2 pr.1 = false then (false, pr.2)
      else check_tail { pr.2 with latest := l2 } n record
    else check_tail { c with latest := l2 } n record
  else check_tail c n record

/-! ## Backend primitives (`memory.rs`, `file.rs`, rocksdb `lib.rs`)

Records are opaque; we model the record stored at index `i` by the number
`i` itself, which loses nothing the claims mention. -/

/-- `InMemoryLog::append` (`memory.rs:52`): push the record, push its leaf
hash, and return `self.data.len()` — the size *after* the push. -/
def memory_append (data : List Nat) (hashes : List (List D)) (record : Nat)
    (h : D) : (List Nat × List (List D)) × Nat :=
  let data2 := data ++ [record]
  ((data2, push_hash hashes h), data2.length)

/-- `RocksDBLog::add` (rocksdb `lib.rs:51`): store under key `self.size`,
increment the size, and return the key — the size *before* the write.
The state is the current size; the pair is `(returned id, new size)`. -/
def rocksdb_add (size : Nat) : Nat × Nat :=
  (size, size + 1)

/-- `InMemoryLog::get` (`memory.rs:79`): `data.get(index)`. -/
def memory_get (data : List Nat) (index : Nat) : Option Nat :=
  data.get? index

/-- `RocksDBLog::get` (rocksdb `lib.rs:77`): a key is present in the `data`
column family exactly when it was written by a previous `add`, i.e. when
`index < size`; absence yields `Ok(None)`. -/
def rocksdb_get (size : Nat) (index : Nat) : Option Nat :=
  if index < size then some index else none

/-- `FileLog::get` (`file.rs:130`): seek to `index * SZ` in `index.bin`
(`LogSize = u64`, `SZ = 16`), `read_exact` the 16-byte entry — which fails
with an I/O error when it is past the `n` stored entries — then read and
return `Some(record)`.  The offset `index * 16` is computed in `u64`, so in
a release build it wraps to `16 * (index % 2^60)` (a seek past the end is
itself not an error): the entry actually read is the one at
`index % 2^60`, and an id at or beyond `2^60` can wrap back in range and
return a record.  There is no path returning `Ok(None)`. -/
def file_get (n : Nat) (index : Nat) : Except Unit (Option Nat) :=
  let wrapped := index % 2 ^ 60
  if wrapped < n then Except.ok (some wrapped) else Except.error ()

/-! ## Semantic descriptions of the tree

`fullHash l j` is the Merkle hash of the complete subtree of `2^l` leaves
rooted at `(l, j)`; `curHash n l j` is the hash of that subtree when only
leaves `0 … n-1` exist (with `""` for an empty subtree and a lone left
child propagating upward), i.e. the left-leaning combination the spec's
`compute_root` describes. -/

/-- Hash of the full subtree rooted at `(l, j)`. -/
def fullHash : Nat → Nat → D
  | 0, j => D.leaf j
  | l + 1, j => D.node (fullHash l (j * 2)) (fullHash l (j * 2 + 1))

/-- Hash of the subtree rooted at `(l, j)` in a log of `n` leaves. -/
def curHash (n : Nat) : Nat → Nat → D
  | 0, j => if j < n then D.leaf j else D.empty
  | l + 1, j =>
    let h1 := curHash n l (j * 2)
    let h2 := curHash n l (j * 2 + 1)
    if h2 = D.empty then h1 else D.node h1 h2

/-- Closed form of the hash store from level `l` upward after `n` appends:
level `l` holds the `n / 2^l` materialized full-subtree hashes. -/
def levelsFrom (n l : Nat) : List (List D) :=
  if h : 0 < n / 2 ^ l then
    ((List.range (n / 2 ^ l)).map (fullHash l)) :: levelsFrom n (l + 1)
  else []
termination_by n / 2 ^ l
decreasing_by
  have h2 : n / 2 ^ (l + 1) = n / 2 ^ l / 2 := by
    rw [pow_succ, Nat.div_div_eq_div_mul]
  omega

/-- Closed form of the frontier from level `l` upward. -/
def frontierFrom (n l : Nat) : List D :=
  if _h : 0 < n / 2 ^ l then
    (if n / 2 ^ l % 2 = 1 then [fullHash l (n / 2 ^ l - 1)] else []) ++
      frontierFrom n (l + 1)
  else []
termination_by n / 2 ^ l
decreasing_by
  have h2 : n / 2 ^ (l + 1) = n / 2 ^ l / 2 := by
    rw [pow_succ, Nat.div_div_eq_div_mul]
  omega

/-- The map of every materialized node of the size-`n` tree. -/
def fullMap (n : Nat) : Pos → Option D :=
  fun p => if p.index < n / 2 ^ p.level then some (fullHash p.level p.index)
           else none

/-- The stopping rule of the spec's `level_sizes` recurrence, as stated:
when the list has at least two elements, its last element is `≤ 1` and the
one before it is `> 1` (from the spec's words, §4.1.1). -/
def spec_stop_ok (l : List Nat) : Prop :=
  match l.reverse with
  | last :: prev :: _ => last ≤ 1 ∧ 1 < prev
  | _ => True

instance (l : List Nat) : Decidable (spec_stop_ok l) := by
  unfold spec_stop_ok
  exact match l.reverse with
  | [] => inferInstanceAs (Decidable True)
  | [_] => inferInstanceAs (Decidable True)
  | _ :: _ :: _ => inferInstanceAs (Decidable (_ ∧ _))

/-! ## The S6 client workflow (spec §8) -/

/-- The S6 client's initial state: witness `(0, "")`, empty cache. -/
def s6_client0 : Client :=
  ⟨⟨0, D.empty⟩, fun _ => none⟩

/-- The S6 client after its first `check_record((9, h_9))` against the
13-record log. -/
def s6_after_first : Client :=
  (check_record s6_client0 13 ⟨9, D.leaf 9⟩).2

/-- A client holding a size-1 witness whose root does not match the log:
its consistency check against the honest 2-record log fails. -/
def bad_witness_client : Client :=
  ⟨⟨1, D.leaf 99⟩, fun _ => none⟩

/-! ## Tree-geometry facts

`tree_sizes n` is, in closed form, the list `n/2^0, n/2^1, …, n/2^K` with
`K = ⌈log₂ n⌉`: the `sz == 1 → 0` special case of the loop coincides with
`⌊1/2⌋ = 0`, and the `height < size` guard stops after the `K`-th halving. -/

theorem tree_sizes_go_eq (n : Nat) :
    ∀ fuel k, Nat.clog 2 n ≤ k + fuel →
      tree_sizes_go fuel n (n / 2 ^ k) (2 ^ k) =
      (List.range' (k + 1) (Nat.clog 2 n - k)).map (fun j => n / 2 ^ j) := by
  intro fuel
  induction fuel with
  | zero =>
    intro k hk
    have h0 : Nat.clog 2 n - k = 0 := by omega
    rw [h0]
    rfl
  | succ f ih =>
    intro k hk
    rcases Nat.lt_or_ge k (Nat.clog 2 n) with hlt | hge
    · have hpow : 2 ^ k < n := (Nat.pow_lt_iff_lt_clog one_lt_two).mpr hlt
      have hszpos : 0 < n / 2 ^ k :=
        Nat.div_pos (Nat.le_of_lt hpow) (Nat.pos_pow_of_pos k (by norm_num))
      rw [tree_sizes_go, if_pos ⟨hpow, hszpos⟩]
      have hsz2 : (if n / 2 ^ k = 1 then 0 else n / 2 ^ k / 2) =
          n / 2 ^ (k + 1) := by
        rcases eq_or_ne (n / 2 ^ k) 1 with h1 | h1
        · rw [if_pos h1]
          have hlt2 : n < 2 ^ (k + 1) := by
            have := (Nat.div_lt_iff_lt_mul
              (Nat.pos_pow_of_pos k (by norm_num))).mp
              (by omega : n / 2 ^ k < 2)
            rw [pow_succ]
            omega
          exact (Nat.div_eq_of_lt hlt2).symm
        · rw [if_neg h1, Nat.div_div_eq_div_mul, pow_succ]
      have hrange : Nat.clog 2 n - k = (Nat.clog 2 n - (k + 1)) + 1 := by
        omega
      rw [hrange, List.range'_succ, List.map_cons]
      have hh : 2 ^ k * 2 = 2 ^ (k + 1) := by rw [pow_succ]
      simp only [hsz2, hh]
      rw [ih (k + 1) (by omega)]
    · have hpow : n ≤ 2 ^ k := le_trans (Nat.le_pow_clog one_lt_two n)
        (Nat.pow_le_pow_right (by norm_num) hge)
      have h0 : Nat.clog 2 n - k = 0 := by omega
      rw [h0, tree_sizes_go, if_neg (by omega)]
      rfl

theorem tree_sizes_eq (n : Nat) (hn : 0 < n) :
    tree_sizes n = (List.range (Nat.clog 2 n + 1)).map (fun k => n / 2 ^ k) := by
  have hfuel : Nat.clog 2 n ≤ 0 + n :=
    le_trans ((Nat.le_pow_iff_clog_le one_lt_two).mp
      (Nat.le_of_lt (Nat.lt_two_pow n))) (by omega)
  have hgo := tree_sizes_go_eq n n 0 hfuel
  simp only [pow_zero, Nat.div_one] at hgo
  rw [tree_sizes, if_pos hn, hgo, List.range_eq_range',
    show Nat.clog 2 n + 1 = (Nat.clog 2 n - 0) + 1 by omega,
    List.range'_succ, List.map_cons, pow_zero, Nat.div_one]

theorem tree_sizes_length (n : Nat) (hn : 0 < n) :
    (tree_sizes n).length = Nat.clog 2 n + 1 := by
  rw [tree_sizes_eq n hn, List.length_map, List.length_range]

theorem tree_sizes_getD (n : Nat) (hn : 0 < n) (l : Nat) :
    (tree_sizes n).getD l 0 = n / 2 ^ l := by
  rw [tree_sizes_eq n hn]
  rcases Nat.lt_or_ge l (Nat.clog 2 n + 1) with hl | hl
  · rw [List.getD_eq_getElem?_getD, List.getElem?_map,
      List.getElem?_range hl]
    rfl
  · rw [List.getD_eq_default _ _ (by
      rw [List.length_map, List.length_range]; omega)]
    have hn2 : n < 2 ^ l := by
      calc n ≤ 2 ^ Nat.clog 2 n := Nat.le_pow_clog one_lt_two n
        _ < 2 ^ l := Nat.pow_lt_pow_right (by norm_num) (by omega)
    exact (Nat.div_eq_of_lt hn2).symm

theorem tree_sizes_ne_nil (n : Nat) (hn : 0 < n) :
    (tree_sizes n).isEmpty = false := by
  rw [tree_sizes, if_pos hn]
  rfl

/-! ## Inclusion-proof size

Each level of `proof_step` inserts at most one position, and at the top
level (`level = ⌈log₂ n⌉`, whose index on the path of any `i < n` is `0`)
the descend loop finds every candidate out of range and inserts nothing,
giving the `⌈log₂ n⌉` bound. -/

theorem descend_loop_card (sizes : List Nat) :
    ∀ nl ni S, (descend_loop nl ni sizes S).card ≤ S.card + 1 := by
  intro nl
  induction nl with
  | zero => intro ni S; simp [descend_loop]
  | succ m ih =>
    intro ni S
    rw [descend_loop]
    split
    · exact Finset.card_insert_le _ _
    · exact ih (ni * 2) S

theorem descend_loop_nothing (sizes : List Nat) :
    ∀ nl ni S, (∀ L, L < nl → sizes.getD L 0 ≤ ni * 2 ^ (nl - L)) →
      descend_loop nl ni sizes S = S := by
  intro nl
  induction nl with
  | zero => intro ni S _; rfl
  | succ m ih =>
    intro ni S hb
    rw [descend_loop]
    have hm : sizes.getD m 0 ≤ ni * 2 := by
      have := hb m (by omega)
      simpa using this
    rw [if_neg (by omega)]
    refine ih (ni * 2) S (fun L hL => ?_)
    have := hb L (by omega)
    have h2 : ni * 2 ^ (m + 1 - L) = ni * 2 * 2 ^ (m - L) := by
      rw [show m + 1 - L = (m - L) + 1 by omega, pow_succ]
      ring
    omega

theorem proof_step_go_card (n i : Nat) (hn : 0 < n) (hi : i < n) :
    ∀ fuel l S, Nat.clog 2 n ≤ l + fuel →
      (proof_step_go fuel l (i / 2 ^ l) (n / 2 ^ l) (tree_sizes n) S).card ≤
        S.card + (Nat.clog 2 n - l) := by
  intro fuel
  induction fuel with
  | zero =>
    intro l S hl
    -- l ≥ clog: nothing is inserted and there is no recursion
    have hge : Nat.clog 2 n ≤ l := by omega
    have hnl : n ≤ 2 ^ l := le_trans (Nat.le_pow_clog one_lt_two n)
      (Nat.pow_le_pow_right (by norm_num) hge)
    have hidx : i / 2 ^ l = 0 := Nat.div_eq_of_lt (by omega)
    have hsz : n / 2 ^ l ≤ 1 := by
      have := Nat.div_le_div_right (c := 2 ^ l) hnl
      rwa [Nat.div_self (Nat.pos_pow_of_pos l (by norm_num))] at this
    rw [proof_step_go]
    simp only [hidx]
    rw [if_pos trivial, if_neg (by omega : ¬ 0 + 1 < n / 2 ^ l)]
    rw [descend_loop_nothing _ l 1 S (fun L hL => ?_)]
    · omega
    · rw [tree_sizes_getD n hn L, one_mul]
      calc n / 2 ^ L ≤ 2 ^ l / 2 ^ L := Nat.div_le_div_right hnl
        _ = 2 ^ (l - L) := Nat.pow_div (by omega) (by norm_num)
  | succ f ih =>
    intro l S hl
    rcases Nat.lt_or_ge (Nat.clog 2 n) (l + 1) with hge | hlt
    · -- l ≥ clog: same as the base case, no recursion happens
      have hnl : n ≤ 2 ^ l := le_trans (Nat.le_pow_clog one_lt_two n)
        (Nat.pow_le_pow_right (by norm_num) (by omega))
      have hidx : i / 2 ^ l = 0 := Nat.div_eq_of_lt (by omega)
      have hsz : n / 2 ^ l ≤ 1 := by
        have := Nat.div_le_div_right (c := 2 ^ l) hnl
        rwa [Nat.div_self (Nat.pos_pow_of_pos l (by norm_num))] at this
      have hlen : (tree_sizes n).length = Nat.clog 2 n + 1 :=
        tree_sizes_length n hn
      rw [proof_step_go]
      simp only [hidx]
      rw [if_pos trivial, if_neg (by omega : ¬ 0 + 1 < n / 2 ^ l)]
      rw [descend_loop_nothing _ l 1 S (fun L hL => ?_)]
      · rw [if_neg (by omega)]
        omega
      · rw [tree_sizes_getD n hn L, one_mul]
        calc n / 2 ^ L ≤ 2 ^ l / 2 ^ L := Nat.div_le_div_right hnl
          _ = 2 ^ (l - L) := Nat.pow_div (by omega) (by norm_num)
    · -- l < clog: one insertion at most, then recurse
      have hlen : (tree_sizes n).length = Nat.clog 2 n + 1 :=
        tree_sizes_length n hn
      have hdiv1 : i / 2 ^ l / 2 = i / 2 ^ (l + 1) := by
        rw [Nat.div_div_eq_div_mul, pow_succ]
      have hdiv2 : n / 2 ^ l / 2 = n / 2 ^ (l + 1) := by
        rw [Nat.div_div_eq_div_mul, pow_succ]
      have hcard : ∀ T : Finset Pos,
          (if (i / 2 ^ l) % 2 = 0 then
            if i / 2 ^ l + 1 < n / 2 ^ l then
              insert (⟨l, i / 2 ^ l + 1⟩ : Pos) T
            else descend_loop l (i / 2 ^ l + 1) (tree_sizes n) T
          else insert (⟨l, i / 2 ^ l - 1⟩ : Pos) T).card ≤ T.card + 1 := by
        intro T
        split
        · split
          · exact Finset.card_insert_le _ _
          · exact descend_loop_card _ l _ T
        · exact Finset.card_insert_le _ _
      rw [proof_step_go]
      rw [if_pos (by omega : l + 1 < (tree_sizes n).length)]
      rw [hdiv1, hdiv2]
      calc (proof_step_go f (l + 1) (i / 2 ^ (l + 1)) (n / 2 ^ (l + 1))
              (tree_sizes n) _).card
          ≤ _ + (Nat.clog 2 n - (l + 1)) := ih (l + 1) _ (by omega)
        _ ≤ S.card + (Nat.clog 2 n - l) := by
            have := hcard S
            omega

end TransparentLog

namespace TransparentLog

/-! ## The append cascade and the frontier root

`build_log n` is, in closed form, `levelsFrom n 0`: level `l` holds the
`n / 2^l` full-subtree hashes.  The frontier walk of `latest` then folds
the per-level frontier hashes into `curHash n ⌈log₂ n⌉ 0`, which is also
what `calc_hash` computes from the materialized nodes. -/



theorem fullHash_ne_empty : ∀ l j, fullHash l j ≠ D.empty := by
  intro l j
  cases l <;> simp [fullHash]

theorem curHash_empty (n : Nat) :
    ∀ l j, n ≤ j * 2 ^ l → curHash n l j = D.empty := by
  intro l
  induction l with
  | zero =>
    intro j hj
    simp only [pow_zero, mul_one] at hj
    simp [curHash, Nat.not_lt.mpr hj]
  | succ m ih =>
    intro j hj
    have h1 : n ≤ j * 2 * 2 ^ m := by
      rw [pow_succ] at hj
      calc n ≤ j * (2 ^ m * 2) := hj
        _ = j * 2 * 2 ^ m := by ring
    have h2 : n ≤ (j * 2 + 1) * 2 ^ m :=
      le_trans h1 (Nat.mul_le_mul_right _ (by omega))
    rw [curHash]
    simp [ih (j * 2) h1, ih (j * 2 + 1) h2]

theorem curHash_full (n : Nat) :
    ∀ l j, (j + 1) * 2 ^ l ≤ n → curHash n l j = fullHash l j := by
  intro l
  induction l with
  | zero =>
    intro j hj
    simp only [pow_zero, mul_one] at hj
    simp [curHash, fullHash, show j < n from hj]
  | succ m ih =>
    intro j hj
    have hr : (j * 2 + 1 + 1) * 2 ^ m ≤ n := by
      rw [pow_succ] at hj
      calc (j * 2 + 1 + 1) * 2 ^ m = (j + 1) * (2 ^ m * 2) := by ring
        _ ≤ n := hj
    have hl : (j * 2 + 1) * 2 ^ m ≤ n :=
      le_trans (Nat.mul_le_mul_right _ (by omega)) hr
    rw [curHash, fullHash]
    simp only [ih (j * 2) hl, ih (j * 2 + 1) hr,
      if_neg (fullHash_ne_empty m (j * 2 + 1))]

theorem curHash_stable (n : Nat) :
    ∀ l, Nat.clog 2 n ≤ l → curHash n l 0 = curHash n (Nat.clog 2 n) 0 := by
  intro l
  induction l with
  | zero => intro h; rw [Nat.le_zero.mp h]
  | succ m ih =>
    intro h
    rcases Nat.lt_or_ge m (Nat.clog 2 n) with hm | hm
    · have : Nat.clog 2 n = m + 1 := by omega
      rw [this]
    · have hn : n ≤ 2 ^ m := (Nat.le_pow_iff_clog_le one_lt_two).mpr hm
      have he : curHash n m 1 = D.empty := curHash_empty n m 1 (by omega)
      rw [curHash]
      simp only [Nat.zero_mul, Nat.mul_zero, he, if_pos rfl]
      exact ih hm

theorem calc_fullMap (n : Nat) (hn : 0 < n) :
    ∀ l j, calc_hash (fullMap n) (tree_sizes n) l j = curHash n l j := by
  intro l
  induction l with
  | zero =>
    intro j
    rcases Nat.lt_or_ge j n with hj | hj
    · rw [calc_hash, tree_sizes_getD n hn 0]
      simp [fullMap, pow_zero, Nat.div_one, hj, curHash, fullHash]
    · rw [calc_hash, tree_sizes_getD n hn 0]
      simp [fullMap, pow_zero, Nat.div_one, Nat.not_lt.mpr hj, curHash]
  | succ m ih =>
    intro j
    rcases Nat.lt_or_ge j (n / 2 ^ (m + 1)) with hj | hj
    · have hfull : (j + 1) * 2 ^ (m + 1) ≤ n :=
        (Nat.le_div_iff_mul_le (Nat.pos_pow_of_pos _ (by norm_num))).mp hj
      rw [calc_hash, tree_sizes_getD n hn]
      simp only [hj, if_pos, fullMap]
      rw [curHash_full n (m + 1) j hfull]
    · rw [calc_hash, tree_sizes_getD n hn]
      simp only [Nat.not_lt.mpr hj, if_false, curHash]
      simp only [ih (j * 2), ih (j * 2 + 1)]

theorem mod_double_of_odd (n l : Nat) (h1 : n % 2 ^ l = 2 ^ l - 1)
    (h2 : n / 2 ^ l % 2 = 1) : n % 2 ^ (l + 1) = 2 ^ (l + 1) - 1 := by
  have hp : 0 < 2 ^ l := Nat.pos_pow_of_pos l (by norm_num)
  have hd2 := Nat.div_add_mod (n / 2 ^ l) 2
  have h3 : n / 2 ^ l = 2 * (n / 2 ^ (l + 1)) + 1 := by
    rw [pow_succ, ← Nat.div_div_eq_div_mul]
    omega
  have hd1 := Nat.div_add_mod n (2 ^ l)
  rw [h3, h1] at hd1
  have e1 : 2 ^ l * (2 * (n / 2 ^ (l + 1)) + 1) =
      2 ^ (l + 1) * (n / 2 ^ (l + 1)) + 2 ^ l := by rw [pow_succ]; ring
  rw [e1] at hd1
  have hp2 : 0 < 2 ^ (l + 1) := Nat.pos_pow_of_pos (l + 1) (by norm_num)
  have hn : n = 2 ^ (l + 1) - 1 + 2 ^ (l + 1) * (n / 2 ^ (l + 1)) := by
    have e3 : (2 : Nat) ^ (l + 1) = 2 ^ l * 2 := pow_succ 2 l
    omega
  rw [hn, Nat.add_mul_mod_self_left]
  exact Nat.mod_eq_of_lt (by omega)

theorem levelsFrom_eq_nil (n l : Nat) (h : n / 2 ^ l = 0) :
    levelsFrom n l = [] := by
  rw [levelsFrom]
  exact dif_neg (by omega)

theorem levelsFrom_eq_cons (n l : Nat) (h : 0 < n / 2 ^ l) :
    levelsFrom n l =
      ((List.range (n / 2 ^ l)).map (fullHash l)) :: levelsFrom n (l + 1) := by
  rw [levelsFrom]
  exact dif_pos h

theorem frontierFrom_eq_nil (n l : Nat) (h : n / 2 ^ l = 0) :
    frontierFrom n l = [] := by
  rw [frontierFrom]
  exact dif_neg (by omega)

theorem frontierFrom_eq_cons (n l : Nat) (h : 0 < n / 2 ^ l) :
    frontierFrom n l =
      (if n / 2 ^ l % 2 = 1 then [fullHash l (n / 2 ^ l - 1)] else []) ++
        frontierFrom n (l + 1) := by
  rw [frontierFrom]
  exact dif_pos h

theorem div_pow_succ (n l : Nat) : n / 2 ^ (l + 1) = n / 2 ^ l / 2 := by
  rw [pow_succ, Nat.div_div_eq_div_mul]

theorem levelsFrom_congr (n n2 : Nat) :
    ∀ c l, n / 2 ^ l ≤ c → (∀ j, l ≤ j → n / 2 ^ j = n2 / 2 ^ j) →
      levelsFrom n l = levelsFrom n2 l := by
  intro c
  induction c with
  | zero =>
    intro l hc hj
    have h1 : n / 2 ^ l = 0 := Nat.le_zero.mp hc
    have h2 : n2 / 2 ^ l = 0 := by rw [← hj l le_rfl]; exact h1
    rw [levelsFrom_eq_nil n l h1, levelsFrom_eq_nil n2 l h2]
  | succ c ih =>
    intro l hc hj
    have heq := hj l le_rfl
    rcases Nat.eq_zero_or_pos (n / 2 ^ l) with h0 | hpos
    · have h2 : n2 / 2 ^ l = 0 := by rw [← heq]; exact h0
      rw [levelsFrom_eq_nil n l h0, levelsFrom_eq_nil n2 l h2]
    · have h2 : 0 < n2 / 2 ^ l := by rw [← heq]; exact hpos
      rw [levelsFrom_eq_cons n l hpos, levelsFrom_eq_cons n2 l h2, heq]
      congr 1
      refine ih (l + 1) ?_ (fun j hjj => hj j (by omega))
      have hdd := div_pow_succ n l
      omega

theorem push_levelsFrom_base (n l : Nat) (h0 : n / 2 ^ l = 0)
    (hm : n % 2 ^ l = 2 ^ l - 1) :
    push_hash (levelsFrom n l) (fullHash l (n / 2 ^ l)) =
      levelsFrom (n + 1) l := by
  have hp : 0 < 2  ^ l := Nat.pos_pow_of_pos l (by norm_num)
  have hn : n = 2 ^ l - 1 := by
    have hd := Nat.div_add_mod n (2 ^ l)
    rw [h0, hm] at hd
    omega
  have hn1 : n + 1 = 2 ^ l := by omega
  have hd1 : (n + 1) / 2 ^ l = 1 := by rw [hn1, Nat.div_self hp]
  have hd2 : (n + 1) / 2 ^ (l + 1) = 0 := by
    refine Nat.div_eq_of_lt ?_
    rw [hn1, pow_succ]
    omega
  rw [levelsFrom_eq_nil n l h0, h0]
  rw [levelsFrom_eq_cons (n + 1) l (by omega), hd1,
    levelsFrom_eq_nil (n + 1) (l + 1) hd2]
  rfl

theorem push_levelsFrom (n : Nat) :
    ∀ c l, n / 2 ^ l ≤ c → n % 2 ^ l = 2 ^ l - 1 →
      push_hash (levelsFrom n l) (fullHash l (n / 2 ^ l)) =
        levelsFrom (n + 1) l := by
  intro c
  induction c with
  | zero =>
    intro l hc hm
    exact push_levelsFrom_base n l (Nat.le_zero.mp hc) hm
  | succ c ih =>
    intro l hc hm
    rcases Nat.eq_zero_or_pos (n / 2 ^ l) with h0 | hpos
    · exact push_levelsFrom_base n l h0 hm
    · have hp : 0 < 2 ^ l := Nat.pos_pow_of_pos l (by norm_num)
      have hd := Nat.div_add_mod n (2 ^ l)
      rw [hm] at hd
      have hdvd : 2 ^ l ∣ (n + 1) := by
        refine ⟨n / 2 ^ l + 1, ?_⟩
        have e : 2 ^ l * (n / 2 ^ l + 1) = 2 ^ l * (n / 2 ^ l) + 2 ^ l := by
          ring
        omega
      have hsucc : (n + 1) / 2 ^ l = n / 2 ^ l + 1 := by
        rw [Nat.succ_div, if_pos hdvd]
      have hlvl : (List.range (n / 2 ^ l)).map (fullHash l) ++
          [fullHash l (n / 2 ^ l)] =
          (List.range (n / 2 ^ l + 1)).map (fullHash l) := by
        rw [List.range_succ, List.map_append]
        rfl
      have hvlen : ((List.range (n / 2 ^ l)).map (fullHash l) ++
          [fullHash l (n / 2 ^ l)]).length = n / 2 ^ l + 1 := by
        simp
      rw [levelsFrom_eq_cons n l hpos, push_hash, hvlen]
      rcases Nat.mod_two_eq_zero_or_one (n / 2 ^ l) with hpar | hpar
      · -- even number of nodes at this level: no cascade
        rw [if_neg (by omega)]
        rw [levelsFrom_eq_cons (n + 1) l (by omega), hsucc, hlvl]
        congr 1
        refine levelsFrom_congr n (n + 1) (n / 2 ^ (l + 1)) (l + 1) le_rfl
          (fun j hj => ?_)
        have hm1 : n + 1 = 2 ^ l * (n / 2 ^ l + 1) := by
          have e : 2 ^ l * (n / 2 ^ l + 1) = 2 ^ l * (n / 2 ^ l) + 2 ^ l := by
            ring
          omega
        have hnd : ¬ 2 ^ j ∣ (n + 1) := by
          intro hdj
          obtain ⟨k, hk⟩ :=
            dvd_trans (pow_dvd_pow 2 (show l + 1 ≤ j by omega)) hdj
          have e2 : 2 ^ (l + 1) * k = 2 ^ l * (2 * k) := by
            rw [pow_succ]; ring
          have hcan : n / 2 ^ l + 1 = 2 * k :=
            Nat.eq_of_mul_eq_mul_left hp (by rw [← hm1, hk, e2])
          omega
        rw [Nat.succ_div, if_neg hnd]
        omega
      · -- odd: cascade into the next level
        rw [if_pos (by omega)]
        have hra : n / 2 ^ l + 1 - 2 = n / 2 ^ l - 1 := by omega
        have hlt2 : n / 2 ^ l - 1 < n / 2 ^ l := by omega
        have hlen2 : n / 2 ^ l - 1 <
            ((List.range (n / 2 ^ l)).map (fullHash l)).length := by
          simpa using hlt2
        have hgd : ((List.range (n / 2 ^ l)).map (fullHash l) ++
            [fullHash l (n / 2 ^ l)]).getD (n / 2 ^ l + 1 - 2) D.empty =
            fullHash l (n / 2 ^ l - 1) := by
          rw [hra, List.getD_eq_getElem?_getD, List.getElem?_append,
            if_pos hlen2, List.getElem?_map, List.getElem?_range hlt2]
          rfl
        rw [hgd]
        have hnode : D.node (fullHash l (n / 2 ^ l - 1))
            (fullHash l (n / 2 ^ l)) = fullHash (l + 1) (n / 2 ^ (l + 1)) := by
          rw [fullHash, div_pow_succ]
          have e1 : n / 2 ^ l / 2 * 2 = n / 2 ^ l - 1 := by omega
          have e2 : n / 2 ^ l / 2 * 2 + 1 = n / 2 ^ l := by omega
          rw [e2, e1]
        rw [hnode]
        have hih := ih (l + 1) (by have := div_pow_succ n l; omega)
          (mod_double_of_odd n l hm hpar)
        rw [hih]
        rw [levelsFrom_eq_cons (n + 1) l (by omega), hsucc, hlvl]

theorem build_log_eq : ∀ n, build_log n = levelsFrom n 0 := by
  intro n
  induction n with
  | zero =>
    rw [levelsFrom_eq_nil 0 0 (by norm_num)]
    rfl
  | succ n ih =>
    rw [build_log, ih]
    have h := push_levelsFrom n n 0 (by simp)
      (by simp [Nat.mod_one])
    simpa using h

theorem getLastD_map_range (f : Nat → D) (m : Nat) (hm : 0 < m) :
    ((List.range m).map f).getLastD D.empty = f (m - 1) := by
  obtain ⟨m2, rfl⟩ : ∃ m2, m = m2 + 1 := ⟨m - 1, by omega⟩
  rw [List.range_succ, List.map_append]
  simp

theorem frontier_cons (x : List D) (rest : List (List D)) :
    frontier (x :: rest) =
      (if x.length % 2 = 1 then [x.getLastD D.empty] else []) ++
        frontier rest := by
  by_cases h : x.length % 2 = 1
  · simp [frontier, List.filter_cons, h]
  · simp [frontier, List.filter_cons, h]

theorem frontier_levelsFrom (n : Nat) :
    ∀ c l, n / 2 ^ l ≤ c → frontier (levelsFrom n l) = frontierFrom n l := by
  intro c
  induction c with
  | zero =>
    intro l hc
    rw [levelsFrom_eq_nil n l (Nat.le_zero.mp hc),
      frontierFrom_eq_nil n l (Nat.le_zero.mp hc)]
    rfl
  | succ c ih =>
    intro l hc
    rcases Nat.eq_zero_or_pos (n / 2 ^ l) with h0 | hpos
    · rw [levelsFrom_eq_nil n l h0, frontierFrom_eq_nil n l h0]
      rfl
    · rw [levelsFrom_eq_cons n l hpos, frontier_cons,
        frontierFrom_eq_cons n l hpos]
      congr 1
      · simp only [List.length_map, List.length_range]
        by_cases hpar : n / 2 ^ l % 2 = 1
        · rw [if_pos hpar, if_pos hpar, getLastD_map_range _ _ hpos]
        · rw [if_neg hpar, if_neg hpar]
      · refine ih (l + 1) ?_
        have := div_pow_succ n l
        omega

theorem frontierFrom_ne_empty (n : Nat) :
    ∀ c l, n / 2 ^ l ≤ c → ∀ e ∈ frontierFrom n l, e ≠ D.empty := by
  intro c
  induction c with
  | zero =>
    intro l hc e he
    rw [frontierFrom_eq_nil n l (Nat.le_zero.mp hc)] at he
    simp at he
  | succ c ih =>
    intro l hc e he
    rcases Nat.eq_zero_or_pos (n / 2 ^ l) with h0 | hpos
    · rw [frontierFrom_eq_nil n l h0] at he
      simp at he
    · rw [frontierFrom_eq_cons n l hpos, List.mem_append] at he
      rcases he with he | he
      · rcases Nat.mod_two_eq_zero_or_one (n / 2 ^ l) with hpar | hpar
        · rw [if_neg (by omega)] at he
          simp at he
        · rw [if_pos hpar] at he
          simp at he
          rw [he]
          exact fullHash_ne_empty _ _
      · refine ih (l + 1) ?_ e he
        have := div_pow_succ n l
        omega

theorem combine_go_eq_foldl :
    ∀ (t : List D) (a : D), a ≠ D.empty →
      combine_go a t =
        t.foldl (fun x e => if x = D.empty then e else D.node e x) a := by
  intro t
  induction t with
  | nil => intro a _; rfl
  | cons e t ih =>
    intro a ha
    rw [combine_go, List.foldl_cons, if_neg ha]
    exact ih (D.node e a) (by simp)

theorem combine_frontier_eq_foldl (xs : List D)
    (hne : ∀ e ∈ xs, e ≠ D.empty) :
    combine_frontier xs =
      xs.foldl (fun x e => if x = D.empty then e else D.node e x) D.empty := by
  cases xs with
  | nil => rfl
  | cons h t =>
    rw [combine_frontier, List.foldl_cons, if_pos rfl]
    exact combine_go_eq_foldl t h (hne h (by simp))

theorem foldE_frontierFrom (n : Nat) :
    ∀ c l, n / 2 ^ l ≤ c →
      (frontierFrom n l).foldl
          (fun x e => if x = D.empty then e else D.node e x)
          (curHash n l (n / 2 ^ l)) =
        curHash n (Nat.clog 2 n) 0 := by
  intro c
  induction c with
  | zero =>
    intro l hc
    have h0 := Nat.le_zero.mp hc
    rw [frontierFrom_eq_nil n l h0, h0, List.foldl_nil]
    have hlt : n < 2 ^ l :=
      (Nat.div_eq_zero_iff (Nat.pos_pow_of_pos l (by norm_num))).mp h0
    exact curHash_stable n l ((Nat.le_pow_iff_clog_le one_lt_two).mp (by omega))
  | succ c ih =>
    intro l hc
    rcases Nat.eq_zero_or_pos (n / 2 ^ l) with h0 | hpos
    · rw [frontierFrom_eq_nil n l h0, h0, List.foldl_nil]
      have hlt : n < 2 ^ l :=
        (Nat.div_eq_zero_iff (Nat.pos_pow_of_pos l (by norm_num))).mp h0
      exact curHash_stable n l ((Nat.le_pow_iff_clog_le one_lt_two).mp (by omega))
    · have hp : 0 < 2 ^ l := Nat.pos_pow_of_pos l (by norm_num)
      have hfull : curHash n l (n / 2 ^ l - 1) = fullHash l (n / 2 ^ l - 1) := by
        refine curHash_full n l (n / 2 ^ l - 1) ?_
        have e : (n / 2 ^ l - 1 + 1) = n / 2 ^ l := by omega
        rw [e]
        exact Nat.div_mul_le_self n (2 ^ l)
      have hstep : (if n / 2 ^ l % 2 = 1
            then [fullHash l (n / 2 ^ l - 1)] else []).foldl
            (fun x e => if x = D.empty then e else D.node e x)
            (curHash n l (n / 2 ^ l)) =
          curHash n (l + 1) (n / 2 ^ (l + 1)) := by
        rcases Nat.mod_two_eq_zero_or_one (n / 2 ^ l) with hpar | hpar
        · -- even: the frontier has no node at this level, and the boundary
          -- subtree at level l+1 has an empty right child
          rw [if_neg (by omega), List.foldl_nil]
          have he : curHash n l (n / 2 ^ (l + 1) * 2 + 1) = D.empty := by
            refine curHash_empty n l _ ?_
            have hd := Nat.div_add_mod n (2 ^ l)
            have hmlt : n % 2 ^ l < 2 ^ l := Nat.mod_lt n hp
            have e1 : n / 2 ^ (l + 1) * 2 = n / 2 ^ l := by
              rw [div_pow_succ]
              omega
            have e2 : (n / 2 ^ (l + 1) * 2 + 1) * 2 ^ l =
                2 ^ l * (n / 2 ^ l) + 2 ^ l := by
              rw [e1]; ring
            omega
          rw [curHash, he, if_pos rfl]
          have e1 : n / 2 ^ (l + 1) * 2 = n / 2 ^ l := by
            rw [div_pow_succ]
            omega
          rw [e1]
        · -- odd: combine the frontier node with the accumulated boundary hash
          rw [if_pos hpar, List.foldl_cons, List.foldl_nil]
          have e1 : n / 2 ^ (l + 1) * 2 = n / 2 ^ l - 1 := by
            rw [div_pow_succ]
            omega
          have e2 : n / 2 ^ (l + 1) * 2 + 1 = n / 2 ^ l := by
            rw [div_pow_succ]
            omega
          rw [curHash, e2, e1, hfull]
      rw [frontierFrom_eq_cons n l hpos, List.foldl_append, hstep]
      refine ih (l + 1) ?_
      have := div_pow_succ n l
      omega

/-! ## Claims -/

/-- C1: inclusion soundness fails on the code.  In the log populated with
13 records, the record reference `(0, leaf_hash(r_0))` does **not** verify
against the log's latest witness with the proof map the log returns for
`proof_positions(0, 13)` — the descend loop of `proof_step` inserts only
the highest node of a partial right sibling, omitting the rest of its
frontier (here the subtree needs `(2,2)` *and* `(1,6)` *and* `(0,12)`).
The same log and proof machinery do verify the record `(9, leaf_hash(r_9))`
exercised by the crate's own tests, so the embedding matches the code where
the code is tested. -/
theorem c1_inclusion_fails :
    verify (latest 13) ⟨0, D.leaf 0⟩
      (server_proofs 13 (proof_positions 0 13)) = false ∧
    verify (latest 13) ⟨9, D.leaf 9⟩
      (server_proofs 13 (proof_positions 9 13)) = true := by
  constructor <;> decide

/-- C2: consistency soundness fails on the code.  With proofs drawn from
the 15-record tree at `prefix_proof_positions(1, 15)`, the new witness
`(15, root_15)` does **not** verify: `prefix_proof_positions` anchors only
the *first* odd-sized level of the new tree's frontier, so the level-1
frontier node `(1,6)` is missing and the recomputed root drops it.  The
pair `(7, 13)` exercised by the crate's `test_verify_tree_prefix` does
verify on both witnesses. -/
theorem c2_consistency_fails :
    verify_tree ⟨15, latest_root (build_log 15)⟩
      (server_proofs 15 (consistency_positions 1 15)) = false ∧
    verify_tree ⟨7, latest_root (build_log 7)⟩
      (server_proofs 13 (consistency_positions 7 13)) = true ∧
    verify_tree ⟨13, latest_root (build_log 13)⟩
      (server_proofs 13 (consistency_positions 7 13)) = true := by
  refine ⟨by decide, by decide, by decide⟩

/-- C3: the first append to an empty `InMemoryLog` returns
`data.len() = 1`, not the new record's id `0`; the RocksDB backend's `add`
returns the prior size, as the claim states.  The in-memory path therefore
contradicts the crate's own `add` test, which asserts the first returned
id is zero. -/
theorem c3_append_returns :
    (memory_append [] [] 0 (D.leaf 0)).2 = 1 ∧
    ∀ size : Nat, (rocksdb_add size).1 = size :=
  ⟨rfl, fun _ => rfl⟩

/-- C4 (counterexample): a failed consistency check leaves the fetched
hashes in the cache.  The client holds witness `(1, leaf 99)` (not the
honest root), checks record `(1, h_1)` against the honest 2-record log:
`check_record` returns `false` — the consistency verification fails — yet
the leaf hashes fetched for the consistency proof remain cached. -/
theorem c4_cache_poisoned :
    (check_record bad_witness_client 2 ⟨1, D.leaf 1⟩).1 = false ∧
    (check_record bad_witness_client 2 ⟨1, D.leaf 1⟩).2.cache ⟨0, 0⟩ =
      some (D.leaf 0) ∧
    bad_witness_client.cache ⟨0, 0⟩ = none := by
  refine ⟨by decide, by decide, rfl⟩

/-- C4 (amended): `get_proofs` merges every hash fetched from the log into
the cache immediately, with no verification of any kind — every requested
position missing from the cache ends up cached with whatever the log
returned for it. -/
theorem c4_cache_unconditional (c : Client) (n : Nat) (ps : Finset Pos)
    (p : Pos) (hp : p ∈ ps) (hc : c.cache p = none) :
    ((get_proofs c n ps).2).cache p = server_hash n p := by
  have hreq : p ∈ requested c ps := by
    simp [requested, Finset.mem_filter, hp, hc, Option.isNone]
  simp only [get_proofs, add_cached, server_proofs, hreq, if_pos]
  cases h : server_hash n p with
  | none => simp [hc]
  | some d => simp

/-- Witness for the amended C4 theorem at a concrete input. -/
theorem c4_cache_unconditional_witness :
    (⟨0, 0⟩ : Pos) ∈ ({⟨0, 0⟩} : Finset Pos) ∧
    ((get_proofs ⟨⟨0, D.empty⟩, fun _ => none⟩ 2 {⟨0, 0⟩}).2).cache ⟨0, 0⟩ =
      server_hash 2 ⟨0, 0⟩ :=
  ⟨by decide,
   c4_cache_unconditional ⟨⟨0, D.empty⟩, fun _ => none⟩ 2 {⟨0, 0⟩} ⟨0, 0⟩
     (by decide) rfl⟩

/-- C5 (counterexample): in the S6 workflow the first
`check_record((9, h_9))` succeeds, but the second `check_record((8, h_8))`
does **not** find every needed position in the cache: the set it forwards
to the log's `proofs` operation is nonempty. -/
theorem c5_second_check_requests :
    (check_record s6_client0 13 ⟨9, D.leaf 9⟩).1 = true ∧
    requested s6_after_first (proof_positions 8 13) ≠ ∅ := by
  refine ⟨by decide, by decide⟩

/-- C5 (amended): the second `check_record((8, h_8))` requests exactly one
position from the log — `(0, 9)`, the leaf hash of record 9, which the
first call never cached (it entered `verify` only as the claimed record's
hash).  The other three positions of `proof_positions(8, 13)` are served
from the cache, and the check still succeeds. -/
theorem c5_second_check_one_request :
    requested s6_after_first (proof_positions 8 13) = {⟨0, 9⟩} ∧
    (check_record s6_after_first 13 ⟨8, D.leaf 8⟩).1 = true := by
  refine ⟨by decide, by decide⟩

/-- C6 (counterexample): `FileLog::get(0)` on an empty log returns an I/O
error, not `Ok(None)`. -/
theorem c6_file_get_errors :
    file_get 0 0 = Except.error () ∧ file_get 0 0 ≠ Except.ok none := by
  refine ⟨rfl, fun h => by simp [file_get] at h⟩

/-- C6 (amended): the memory and KV backends return `Some` exactly for
`id < n` and `None` past the end; the file backend reads whichever entry
its `u64`-wrapped seek offset lands on — `Ok(Some(record))` when
`id % 2^60 < n` (so for every `id < n`), and an I/O error, never
`Ok(None)`, when `id % 2^60 ≥ n` (so for `n ≤ id < 2^60`; an id at or
beyond `2^60` wraps and behaves like `id % 2^60`). -/
theorem c6_get_semantics (data : List Nat) (size index : Nat) :
    (memory_get data index = none ↔ data.length ≤ index) ∧
    (index < size → rocksdb_get size index = some index) ∧
    (size ≤ index → rocksdb_get size index = none) ∧
    (index < size → index < 2 ^ 60 →
      file_get size index = Except.ok (some index)) ∧
    (size ≤ index → index < 2 ^ 60 →
      file_get size index = Except.error ()) ∧
    (file_get size index = file_get size (index % 2 ^ 60)) := by
  refine ⟨List.get?_eq_none, fun h => ?_, fun h => ?_, fun h h60 => ?_,
    fun h h60 => ?_, ?_⟩
  · simp [rocksdb_get, h]
  · simp [rocksdb_get, Nat.not_lt.mpr h]
  · show (if index % 2 ^ 60 < size then
        (Except.ok (some (index % 2 ^ 60)) : Except Unit (Option Nat))
      else Except.error ()) = Except.ok (some index)
    rw [Nat.mod_eq_of_lt h60, if_pos h]
  · show (if index % 2 ^ 60 < size then
        (Except.ok (some (index % 2 ^ 60)) : Except Unit (Option Nat))
      else Except.error ()) = Except.error ()
    rw [Nat.mod_eq_of_lt h60, if_neg (Nat.not_lt.mpr h)]
  · show (if index % 2 ^ 60 < size then
        (Except.ok (some (index % 2 ^ 60)) : Except Unit (Option Nat))
      else Except.error ()) =
      (if index % 2 ^ 60 % 2 ^ 60 < size then
        (Except.ok (some (index % 2 ^ 60 % 2 ^ 60)) : Except Unit (Option Nat))
      else Except.error ())
    rw [Nat.mod_mod_of_dvd index (dvd_refl (2 ^ 60))]

/-- Witness for the C6 theorem at concrete inputs. -/
theorem c6_get_semantics_witness :
    memory_get ([] : List Nat) 0 = none ∧
    file_get 1 0 = Except.ok (some 0) ∧
    file_get 0 0 = Except.error () :=
  ⟨(c6_get_semantics [] 0 0).1.mpr (by decide),
   (c6_get_semantics [] 1 0).2.2.2.1 (by decide) (by norm_num),
   (c6_get_semantics [] 0 0).2.2.2.2.1 (by decide) (by norm_num)⟩

/-- C7 (counterexample): the spec's stopping rule — the last element is
`≤ 1` and its predecessor is `> 1` — fails on the code's own output for
`n = 13`, which is `[13, 6, 3, 1, 0]`: the final `0` follows a `1`. -/
theorem c7_stop_rule_fails :
    ¬ spec_stop_ok (tree_sizes 13) ∧ tree_sizes 13 = [13, 6, 3, 1, 0] := by
  refine ⟨by decide, by decide⟩

/-- C7 (amended): `tree_sizes 0 = []`; for `n > 0` the `k`-th element of
`tree_sizes n` is `⌊n / 2^k⌋` (so the first is `n` and each subsequent one
is the floor of half its predecessor, the `1 → 0` step included), and the
list stops after exactly `⌈log₂ n⌉` halvings; concretely
`tree_sizes 13 = [13, 6, 3, 1, 0]` and `tree_sizes 16 = [16, 8, 4, 2, 1]`. -/
theorem c7_tree_sizes_recurrence (n : Nat) (hn : 0 < n) :
    tree_sizes 0 = [] ∧
    tree_sizes n = (List.range (Nat.clog 2 n + 1)).map (fun k => n / 2 ^ k) ∧
    (tree_sizes n).getD 0 0 = n ∧
    (∀ k, (tree_sizes n).getD (k + 1) 0 = (tree_sizes n).getD k 0 / 2) ∧
    tree_sizes 13 = [13, 6, 3, 1, 0] ∧ tree_sizes 16 = [16, 8, 4, 2, 1] := by
  refine ⟨rfl, tree_sizes_eq n hn, ?_, fun k => ?_, by decide, by decide⟩
  · rw [tree_sizes_getD n hn 0]
    simp
  · rw [tree_sizes_getD n hn, tree_sizes_getD n hn, Nat.div_div_eq_div_mul,
      pow_succ]

/-- Witness for the amended C7 theorem at `n = 13`. -/
theorem c7_tree_sizes_recurrence_witness :
    (0 : Nat) < 13 ∧
    tree_sizes 13 = (List.range (Nat.clog 2 13 + 1)).map (fun k => 13 / 2 ^ k) :=
  ⟨by decide, (c7_tree_sizes_recurrence 13 (by decide)).2.1⟩

/-- C8: inclusion-proof minimality — for `n ≥ 1` and `i < n`,
`proof_positions(i, n)` holds at most `⌈log₂ n⌉` positions. -/
theorem c8_inclusion_minimality (n i : Nat) (hn : 0 < n) (hi : i < n) :
    (proof_positions i n).card ≤ Nat.clog 2 n := by
  rw [proof_positions]
  simp only [tree_sizes_ne_nil n hn, Bool.false_eq_true, if_false, proof_step]
  have h := proof_step_go_card n i hn hi ((tree_sizes n).length) 0 ∅
    (by rw [tree_sizes_length n hn]; omega)
  simp only [pow_zero, Nat.div_one, Finset.card_empty] at h
  omega

/-- Witness for C8 at the crate's own test vector `(i, n) = (9, 13)`. -/
theorem c8_inclusion_minimality_witness :
    (9 : Nat) < 13 ∧ (proof_positions 9 13).card ≤ Nat.clog 2 13 :=
  ⟨by decide, c8_inclusion_minimality 13 9 (by decide) (by decide)⟩

/-- C10: `verify` never checks that the claimed record id lies inside the
tree.  A witness of size 1, a record reference with id `5 ≥ 1`, and a
proof map that alone reconstructs the root make `verify` return `true`:
the inserted leaf entry at `(0, 5)` is ignored because `calc_hash` only
consults positions whose index is below the level's size. -/
theorem c10_verify_ignores_out_of_range :
    ∃ (tree : LogTree) (record : RecordRef) (proofs : Pos → Option D),
      0 < tree.size ∧ tree.size ≤ record.id ∧
      verify tree record proofs = true :=
  ⟨⟨1, D.leaf 0⟩, ⟨5, D.leaf 42⟩,
   (fun p => if p = ⟨0, 0⟩ then some (D.leaf 0) else none),
   by decide, by decide, by decide⟩

/-- C9: for every log reached by `n` appends, the frontier-stack root
returned by `latest` equals the root `calc_hash` computes over the map of
all materialized tree nodes for size `n` (both equal the left-leaning
Merkle root of the `n` leaves; for `n = 0` both are `""`). -/
theorem c9_latest_equals_compute_root (n : Nat) :
    latest_root (build_log n) =
      calc_hash (fullMap n) (tree_sizes n) ((tree_sizes n).length - 1) 0 := by
  rcases Nat.eq_zero_or_pos n with rfl | hn
  · rfl
  · rw [build_log_eq n, latest_root,
      frontier_levelsFrom n (n / 2 ^ 0) 0 le_rfl]
    rw [combine_frontier_eq_foldl _
      (frontierFrom_ne_empty n (n / 2 ^ 0) 0 le_rfl)]
    have hacc : curHash n 0 (n / 2 ^ 0) = D.empty := by
      rw [pow_zero, Nat.div_one]
      exact curHash_empty n 0 n (by simp)
    have hfold := foldE_frontierFrom n (n / 2 ^ 0) 0 le_rfl
    rw [hacc] at hfold
    rw [hfold, calc_fullMap n hn, tree_sizes_length n hn]
    simp

end TransparentLog
